import Mathlib

/-!
Verification development for the ffmpeg clip cutter (`main.go`).

A shallow embedding of the functions of `main.go` (`ParseTime`, `readConfig`,
`ensureTmpDir`, `convert`, `split`, `concat`) together with the standard
library functions they call, followed by theorems about them.

Conventions of the embedding:
* a Go `string` / `[]byte` is a list of characters, one character per byte;
* a Go `int` is a 64-bit two's complement integer, embedded in `Int` with an
  explicit reduction `wrapInt` after every arithmetic operation;
* a Go `error` is an `Option GoError`, `none` standing for `nil`;
* the outside world (file system, external engine, scheduler) is explicit
  state or an explicit argument.
-/

namespace Ffmpeg

/-- A Go string: a sequence of bytes, one `Char` per byte. -/
abbrev GoString := List Char

/-- The error values that the program can produce or pass on. -/
inductive GoError where
  /-- The value of `fmt.Errorf("invalid format of time:%s", s)`. -/
  | invalidFormat (s : GoString)
  /-- A `*strconv.NumError` wrapping `strconv.ErrSyntax` for the input `s`. -/
  | numSyntax (s : GoString)
  /-- A `*strconv.NumError` wrapping `strconv.ErrRange` for the input `s`. -/
  | numRange (s : GoString)
  /-- An error reported by the operating system or the external engine. -/
  | external (code : Nat)
  deriving DecidableEq, Repr

/-! ## Standard library: `strings.Split` with a one-byte separator -/

/-- The function `strings.Split(s, sep)` for a separator `sep` of one byte: the
pieces of `s` between the occurrences of `sep`. The result is never empty and
`strings.Split("", sep)` is the one-element slice holding the empty string. -/
def strings_Split : GoString → Char → List GoString
  | [], _ => [[]]
  | c :: cs, sep =>
    if c = sep then [] :: strings_Split cs sep
    else
      match strings_Split cs sep with
      | [] => [[c]]
      | piece :: pieces => (c :: piece) :: pieces

/-! ## Standard library: `strconv.Atoi` -/

/-- The width of the Go type `int` (a 64-bit platform). -/
def intSize : Nat := 64

/-- Reduction of a mathematical integer to the `int` it is stored as
(two's complement, `intSize` bits). -/
def wrapInt (x : Int) : Int := (x + 2 ^ 63) % 2 ^ 64 - 2 ^ 63

/-- The value of a decimal digit byte, `none` for any other byte
(`ch -= '0'; if ch > 9` in the Go code). -/
def digitVal (c : Char) : Option Nat :=
  if 48 ≤ c.toNat ∧ c.toNat ≤ 57 then some (c.toNat - 48) else none

/-- The digit loop of `strconv.ParseUint(s, 10, 64)`, started with the
accumulator `n`: bytes are read from the left; a byte that is no digit is a
syntax error, an accumulator that leaves the `uint64` range is a range error.
The error is reported as `true` for a range error and `false` for a syntax
error. -/
def parseUintLoop : List Char → Nat → Except Bool Nat
  | [], n => .ok n
  | c :: cs, n =>
    match digitVal c with
    | none => .error false
    | some d =>
      -- cutoff = maxUint64/10 + 1: n*10 would overflow
      if n ≥ (2 ^ 64 - 1) / 10 + 1 then .error true
      else if n * 10 + d > 2 ^ 64 - 1 then .error true
      else parseUintLoop cs (n * 10 + d)

/-- The function `strconv.ParseUint(s, 10, 64)`. -/
def ParseUint (s : GoString) : Except Bool Nat :=
  if s = [] then .error false else parseUintLoop s 0

/-- The function `strconv.ParseInt(s0, 10, 0)`: an optional sign, then
`ParseUint`, then the check against the `int` range. -/
def ParseInt (s0 : GoString) : Except GoError Int :=
  if s0 = [] then .error (.numSyntax s0)
  else
    let neg := s0.head? = some '-'
    let s := if s0.head? = some '+' ∨ s0.head? = some '-' then s0.tail else s0
    match ParseUint s with
    | .error false => .error (.numSyntax s0)
    | .error true => .error (.numRange s0)
    | .ok un =>
      if ¬ neg ∧ un ≥ 2 ^ 63 then .error (.numRange s0)
      else if neg ∧ un > 2 ^ 63 then .error (.numRange s0)
      else .ok (if neg then - (un : Int) else (un : Int))

/-- The digit loop of the fast path of `strconv.Atoi`. -/
def atoiFastLoop : List Char → Int → Option Int
  | [], n => some n
  | c :: cs, n =>
    match digitVal c with
    | none => none
    | some d => atoiFastLoop cs (n * 10 + d)

/-- The function `strconv.Atoi`: strings of 1 to 18 bytes take the fast path
(no overflow is possible there), every other string goes through `ParseInt`. -/
def Atoi (s0 : GoString) : Except GoError Int :=
  if 0 < s0.length ∧ s0.length < 19 then
    let s := if s0.head? = some '-' ∨ s0.head? = some '+' then s0.tail else s0
    if s.length < 1 then .error (.numSyntax s0)
    else
      match atoiFastLoop s 0 with
      | none => .error (.numSyntax s0)
      | some n => .ok (if s0.head? = some '-' then - n else n)
  else ParseInt s0

/-! ## `ParseTime` -/

/-- The value of `int(math.Pow(60, float64(k)))`. The loop of `ParseTime` only
reaches `k = 0, 1, 2`, where the floating-point power is exactly `1`, `60`
and `3600`. -/
def pow60 (k : Nat) : Int := 60 ^ k

/-- The loop `for i := len(times) - 1; i >= 0; i--` of `ParseTime`; the first
argument after `times` is `i + 1`. -/
def ParseTime.loop (times : List GoString) : Nat → Int → Int × Option GoError
  | 0, sec => (sec, none)
  | i + 1, sec =>
    match Atoi (times.getD i []) with
    | .error err => (0, some err)
    | .ok t => ParseTime.loop times i (wrapInt (sec + wrapInt (t * pow60 (times.length - i - 1))))

/-- The function `ParseTime` of `main.go`. -/
def ParseTime (str : GoString) : Int × Option GoError :=
  let times := strings_Split str ':'
  if times.length > 3 then (0, some (.invalidFormat str))
  else ParseTime.loop times times.length 0

/-! ## Standard library: `bufio.Reader.ReadLine` -/

/-- The buffer size of a reader made by `bufio.NewReader`. -/
def defaultBufSize : Nat := 4096

/-- Removal of one trailing carriage return (the `drop = 2` case of
`ReadLine`). -/
def dropCR (line : GoString) : GoString :=
  if line.getLast? = some '\r' then line.dropLast else line

/-- One call of `ReadLine` on a `bufio.Reader` with a buffer of `size` bytes
whose unread input is `data` (the underlying reader delivers `data` and then
`io.EOF`). The result is `none` for `io.EOF`, otherwise the returned line, the
flag `isPrefix` and the input left unread.

* a line feed among the first `size` bytes ends the line; the line feed and a
  carriage return before it are dropped;
* fewer than `size` bytes without a line feed: the rest of the input is the
  line;
* `size` bytes without a line feed fill the buffer: they are returned with
  `isPrefix` set (a trailing carriage return is put back for the next call). -/
def ReadLine (size : Nat) (data : GoString) : Option (GoString × Bool × GoString) :=
  if data = [] then none
  else
    let window := data.take size
    let line := window.takeWhile (fun c => c != '\n')
    if line.length < window.length then
      some (dropCR line, false, data.drop (line.length + 1))
    else if data.length < size then some (line, false, [])
    else if line.getLast? = some '\r' then
      some (line.dropLast, true, data.drop (size - 1))
    else some (line, true, data.drop size)

/-! ## `readConfig` -/

/-- The type `clip` of `main.go`. -/
structure clip where
  SS : GoString
  To : GoString
  deriving DecidableEq, Repr

/-- The loop `for { ... }` of `readConfig` on the unread input `data`, bounded
by a number of iterations. The slice result is `none` for `nil`. Running out of
iterations gives `(none, none)`, a pair the Go function cannot return. -/
def readConfig.loop : Nat → GoString → List clip → Option (List clip) × Option GoError
  | 0, _, _ => (none, none)
  | fuel + 1, data, clips =>
    match ReadLine defaultBufSize data with
    | none => (some clips, none)
    | some (l, _, rest) =>
      let tt := strings_Split l ' '
      if tt.length ≠ 2 then (none, some (.invalidFormat l))
      else readConfig.loop fuel rest (clips ++ [⟨tt.getD 0 [], tt.getD 1 []⟩])

/-- The function `readConfig` of `main.go` on a reader that delivers `data`.
Every call of `ReadLine` that returns a line consumes at least one byte, so
`data.length + 1` iterations are enough (`readConfig_loop_fuel`). -/
def readConfig (data : GoString) : Option (List clip) × Option GoError :=
  readConfig.loop (data.length + 1) data []

/-! ## Standard library: `filepath.Join` (Unix) and `fmt.Sprintf("%d", i)` -/

/-- One path element met by `filepath.Clean`; `stack` holds the elements kept
so far, the last one first. Empty elements and `.` are dropped, `..` removes
the element before it when there is one to remove. -/
def cleanStep (rooted : Bool) (stack : List GoString) (e : GoString) : List GoString :=
  if e = [] ∨ e = ['.'] then stack
  else if e = ['.', '.'] then
    match stack with
    | top :: below => if top = ['.', '.'] then e :: stack else below
    | [] => if rooted then [] else [e]
  else e :: stack

/-- The function `filepath.Clean` with `/` as separator. -/
def filepath_Clean (path : GoString) : GoString :=
  if path = [] then ['.']
  else
    let rooted : Bool := path.head? = some '/'
    let kept := ((strings_Split path '/').foldl (cleanStep rooted) []).reverse
    let body := List.intercalate ['/'] kept
    if rooted then '/' :: body else if body = [] then ['.'] else body

/-- The function `filepath.Join` for two elements: elements before the first
non-empty one are ignored, the others are joined by `/` and cleaned. -/
def filepath_Join (a b : GoString) : GoString :=
  if a ≠ [] then filepath_Clean (a ++ '/' :: b)
  else if b ≠ [] then filepath_Clean b
  else []

/-- The text `fmt.Sprintf("%d.mp4", i)` for an index `i` of a `range` loop. -/
def Sprintf_d_mp4 (i : Nat) : GoString := Nat.toDigits 10 i ++ ".mp4".toList

/-! ## The outside world -/

/-- The part of the process environment that the functions below read or
change. -/
structure World where
  /-- The result of `os.Getwd()`. -/
  cwd : GoString
  /-- The paths on which `os.Stat` returns a nil error. -/
  files : List GoString
  /-- The calls of `ioutil.WriteFile` made so far: path and content. -/
  written : List (GoString × GoString)
  /-- The argument vectors with which the engine was run so far. -/
  launched : List (List GoString)
  deriving DecidableEq, Repr

/-- The external engine `ffmpeg`: from the argument vector and the files
present it gives the result of `cmd.Run()` and the files present afterwards. -/
abbrev Engine := List GoString → List GoString → Option GoError × List GoString

/-- The error of `os.Stat(path)`. -/
def os_Stat (w : World) (path : GoString) : Option GoError :=
  if path ∈ w.files then none else some (.external 2)

/-- The call `exec.Command(ffmpeg, args...).Run()`: the engine is run once on
`args`. -/
def cmd_Run (engine : Engine) (args : List GoString) (w : World) : Option GoError × World :=
  ((engine args w.files).1, { w with files := (engine args w.files).2, launched := w.launched ++ [args] })

/-! ## `ensureTmpDir`, `convert`, `split`, `concat` -/

/-- The function `ensureTmpDir` of `main.go`; `mkdirAll` is the result of
`os.MkdirAll` on a path. Index `0` of the result of `strings.Split` always
exists (`strings_Split_ne_nil`). -/
def ensureTmpDir (mkdirAll : GoString → Option GoError) (input : GoString) :
    GoString × Option GoError :=
  let tmpDir := (strings_Split input '.').headD [] ++ "_tmp".toList
  (tmpDir, mkdirAll tmpDir)

/-- The function `convert` of `main.go`. The result is `none` when the
function panics (`args[len(args)-1]` on an empty `args`). -/
def convert (engine : Engine) (args : List GoString) (w : World) : Option (Option GoError × World) :=
  match args.getLast? with
  | none => none
  | some output =>
    match os_Stat w output with
    | none => some (none, w)
    | some _ => some (cmd_Run engine args w)

/-- One goroutine started by `split`: how many of its four steps it has done,
and the length of `outputs` that it read in its second step. -/
structure Goroutine where
  pc : Nat
  l : Nat
  deriving DecidableEq, Repr

/-- The state shared by the goroutines of `split`: the world, the backing
array of `outputs` (made with capacity `len(clips)`), the length of `outputs`,
and the goroutines. -/
structure SplitState where
  world : World
  slots : List GoString
  len : Nat
  gor : List Goroutine
  deriving DecidableEq, Repr

/-- One step of the goroutine of index `i`. Its body runs in four steps:

0. `cmd.Run()` on its argument vector, the outcome being dropped;
1. `append` reads the length of the shared slice `outputs`;
2. `append` stores `clipOut` in the backing array at that length;
3. the assignment stores the new length, the length read plus one, in
   `outputs`.

No lock surrounds steps 1 to 3, as in the source, so that steps of other
goroutines may come in between. The length read is always below the capacity
(`split_store_within_capacity`), so that `append` never allocates a new
array. A goroutine that has done its four steps ignores further steps. -/
def split.step (engine : Engine) (input : GoString) (tasks : List (clip × GoString))
    (st : SplitState) (i : Nat) : SplitState :=
  match tasks.get? i, st.gor.get? i with
  | some (c, clipOut), some g =>
    match g.pc with
    | 0 =>
      let args := ["-i".toList, input, "-ss".toList, c.SS, "-c".toList, "copy".toList,
        "-to".toList, c.To, clipOut]
      { st with world := (cmd_Run engine args st.world).2, gor := st.gor.set i ⟨1, g.l⟩ }
    | 1 => { st with gor := st.gor.set i ⟨2, st.len⟩ }
    | 2 => { st with slots := st.slots.set g.l clipOut, gor := st.gor.set i ⟨3, g.l⟩ }
    | 3 => { st with len := g.l + 1, gor := st.gor.set i ⟨4, g.l⟩ }
    | _ => st
  | _, _ => st

/-- The function `split` of `main.go` under a schedule: every occurrence of
`i` in `schedule` lets the goroutine of the clip of index `i` do its next
step. `wg.Wait()` returns when every goroutine has done its four steps; the
result is `none` when the schedule leaves a goroutine unfinished. -/
def split (engine : Engine) (schedule : List Nat) (clips : List clip) (workDir input : GoString)
    (w : World) : Option ((List GoString × Option GoError) × World) :=
  let tasks := clips.enum.map (fun ic => (ic.2, filepath_Join workDir (Sprintf_d_mp4 ic.1)))
  let start : SplitState :=
    ⟨w, List.replicate clips.length [], 0, List.replicate clips.length ⟨0, 0⟩⟩
  let final := schedule.foldl (split.step engine input tasks) start
  if final.gor.all (fun g => g.pc == 4) then
    some ((final.slots.take final.len, none), final.world)
  else none

/-- The line written to the manifest for the segment `v`. -/
def manifestLine (pwd v : GoString) : GoString :=
  "file '".toList ++ filepath_Join pwd v ++ "'\n".toList

/-- The function `concat` of `main.go`; `writeFile` is the result of
`ioutil.WriteFile` for a path and a content. -/
def concat (engine : Engine) (writeFile : GoString → GoString → Option GoError)
    (clips : List GoString) (workdir output : GoString) (w : World) : Option GoError × World :=
  let pwd := w.cwd
  let buf := clips.foldl (fun buf v => buf ++ manifestLine pwd v) []
  let clipsfile := filepath_Join workdir ("clips-".toList ++ output ++ ".txt".toList)
  let w1 := { w with written := w.written ++ [(clipsfile, buf)] }
  match writeFile clipsfile buf with
  | some err => (some err, w1)
  | none =>
    let args := ["-f".toList, "concat".toList, "-safe".toList, "0".toList, "-i".toList,
      clipsfile, "-c".toList, "copy".toList, output]
    cmd_Run engine args { w1 with files := clipsfile :: w1.files }

/-! ## Vocabulary of the specification -/

/-- A byte that is a decimal digit. -/
def isDigit (c : Char) : Bool := decide (48 ≤ c.toNat ∧ c.toNat ≤ 57)

/-- The number written by the digits `ds` after the digits of `n`. -/
def decFold (n : Nat) (ds : List Char) : Nat :=
  ds.foldl (fun n c => n * 10 + (c.toNat - 48)) n

/-- The number written by a string of decimal digits. -/
def decValue (ds : List Char) : Nat := decFold 0 ds

/-- A non-negative decimal integer without sign: one or more digits. -/
def isDigits (s : GoString) : Bool := !s.isEmpty && s.all isDigit

/-- A decimal integer: an optional sign `+` or `-`, then one or more digits. -/
def isDecimalInteger (s : GoString) : Bool :=
  match s with
  | [] => false
  | c :: cs => if c = '+' ∨ c = '-' then isDigits cs else isDigits (c :: cs)

/-- The integer written by a decimal integer with an optional sign. -/
def signedValue (s : GoString) : Int :=
  match s with
  | [] => 0
  | c :: cs =>
    if c = '-' then - (decValue cs : Int)
    else if c = '+' then (decValue cs : Int)
    else (decValue (c :: cs) : Int)

/-- The sum of `component * 60 ^ p` over the components, `p` being the
position of the component counted from the right, starting at `0`. -/
def positional (vals : List Int) : Int :=
  (vals.reverse.enum.map (fun pv => pv.2 * 60 ^ pv.1)).sum

/-- The input made of the lines `lines`, each followed by a line feed. -/
def joinLines : List GoString → GoString
  | [] => []
  | l :: ls => l ++ '\n' :: joinLines ls

/-- The effect of the body of the loop of `readConfig` on a list of lines
already cut out of the input: the first line that does not split at spaces
into two fields ends the loading with an error, every other line adds an
entry. -/
def processLines : List GoString → List clip → Option (List clip) × Option GoError
  | [], clips => (some clips, none)
  | l :: ls, clips =>
    if (strings_Split l ' ').length ≠ 2 then (none, some (.invalidFormat l))
    else processLines ls
      (clips ++ [⟨(strings_Split l ' ').getD 0 [], (strings_Split l ' ').getD 1 []⟩])

/-- A line that `ReadLine` returns whole: no line feed in it and, with its
line feed, no longer than the buffer. -/
def shortLine (l : GoString) : Prop := '\n' ∉ l ∧ l.length < defaultBufSize

/-- The file name of a path: what follows the last `/`. -/
def fileName (path : GoString) : GoString :=
  ((strings_Split path '/').getLast?).getD []

/-- The base name of a path: its file name without the extension, the
extension being the last `.` of the file name and what follows it. -/
def baseName (path : GoString) : GoString :=
  let parts := strings_Split (fileName path) '.'
  if parts.length ≤ 1 then fileName path else List.intercalate ['.'] parts.dropLast

/-- The path of the segment of index `i`: the working directory joined with
`<i>.mp4`. -/
def segmentPath (workDir : GoString) (i : Nat) : GoString :=
  filepath_Join workDir (Sprintf_d_mp4 i)

/-- A whitespace byte: space, tab, line feed, vertical tab, form feed,
carriage return. -/
def isWhitespace (c : Char) : Bool :=
  c = ' ' || c = '\t' || c = '\n' || c = '\x0b' || c = '\x0c' || c = '\r'

/-- The pieces of a line between its whitespace bytes, empty pieces
included. -/
def splitWhitespace : GoString → List GoString
  | [] => [[]]
  | c :: cs =>
    if isWhitespace c then [] :: splitWhitespace cs
    else
      match splitWhitespace cs with
      | [] => [[c]]
      | piece :: pieces => (c :: piece) :: pieces

/-- The whitespace-separated tokens of a line: its maximal runs of bytes that
are not whitespace. -/
def tokens (l : GoString) : List GoString :=
  (splitWhitespace l).filter (fun t => !t.isEmpty)

/-- The lines of an input as `ReadLine` hands them to `readConfig`: the
terminated lines `lines` without their carriage return, then the unterminated
rest `last` when it is not empty. -/
def linesRead (lines : List GoString) (last : GoString) : List GoString :=
  lines.map dropCR ++ if last = [] then [] else [last]

/-- The part of a state of `split` that the returned list is made of: the
backing array, the length and the goroutines. -/
def SplitState.core (st : SplitState) : List GoString × Nat × List Goroutine :=
  (st.slots, st.len, st.gor)

/-- The effect of one step of `split` on the core of the state; `paths` are
the output paths of the goroutines. -/
def split.coreStep (paths : List GoString) (cs : List GoString × Nat × List Goroutine)
    (i : Nat) : List GoString × Nat × List Goroutine :=
  match paths.get? i, cs.2.2.get? i with
  | some clipOut, some g =>
    match g.pc with
    | 0 => (cs.1, cs.2.1, cs.2.2.set i ⟨1, g.l⟩)
    | 1 => (cs.1, cs.2.1, cs.2.2.set i ⟨2, cs.2.1⟩)
    | 2 => (cs.1.set g.l clipOut, cs.2.1, cs.2.2.set i ⟨3, g.l⟩)
    | 3 => (cs.1, g.l + 1, cs.2.2.set i ⟨4, g.l⟩)
    | _ => cs
  | _, _ => cs

/-- The list returned by `split` for given output paths and a schedule,
`none` when the schedule leaves a goroutine unfinished. -/
def splitOutputs (paths : List GoString) (schedule : List Nat) : Option (List GoString) :=
  let final := schedule.foldl (split.coreStep paths)
    (List.replicate paths.length [], 0, List.replicate paths.length ⟨0, 0⟩)
  if final.2.2.all (fun g => g.pc == 4) then some (final.1.take final.2.1) else none

/-- The number of goroutines that have done their four steps. -/
def doneCount (gor : List Goroutine) : Nat := gor.countP (fun g => g.pc == 4)

/-- The invariant of the core of the state of `split`: the length of `outputs`
and every length read by a goroutine that has not yet stored its new length
are at most the number of goroutines that are done. -/
def coreInv (cs : List GoString × Nat × List Goroutine) : Prop :=
  cs.2.1 ≤ doneCount cs.2.2 ∧
    ∀ g ∈ cs.2.2, (g.pc = 2 ∨ g.pc = 3) → g.l ≤ doneCount cs.2.2

/-! ## Lemmas on `strings.Split` and `strconv.Atoi` -/

theorem strings_Split_ne_nil (s : GoString) (sep : Char) : strings_Split s sep ≠ [] := by
  induction s with
  | nil => simp [strings_Split]
  | cons c cs ih =>
    unfold strings_Split
    split
    · simp
    · split <;> simp

theorem digitVal_of_isDigit {c : Char} (h : isDigit c = true) :
    digitVal c = some (c.toNat - 48) := by
  simp only [isDigit, decide_eq_true_eq] at h
  simp [digitVal, h]

theorem digitVal_of_not_isDigit {c : Char} (h : isDigit c = false) : digitVal c = none := by
  simp only [isDigit, decide_eq_false_iff_not] at h
  simp [digitVal, h]

theorem le_decFold (ds : List Char) (n : Nat) : n ≤ decFold n ds := by
  induction ds generalizing n with
  | nil => simp [decFold]
  | cons c cs ih =>
    have h := ih (n * 10 + (c.toNat - 48))
    simp only [decFold, List.foldl_cons] at h ⊢
    omega

theorem atoiFastLoop_eq_some_iff (ds : List Char) (n : Nat) (v : Int) :
    atoiFastLoop ds (n : Int) = some v ↔ ds.all isDigit = true ∧ v = (decFold n ds : Int) := by
  induction ds generalizing n with
  | nil => simp [atoiFastLoop, decFold, eq_comm]
  | cons c cs ih =>
    cases hc : isDigit c with
    | false => simp [atoiFastLoop, digitVal_of_not_isDigit hc, hc]
    | true =>
      have h := ih (n * 10 + (c.toNat - 48))
      simp only [atoiFastLoop, digitVal_of_isDigit hc, List.all_cons, hc, Bool.true_and,
        decFold, List.foldl_cons] at h ⊢
      rw [← h]
      push_cast
      rfl

theorem parseUintLoop_eq_ok_iff (ds : List Char) (n v : Nat) (hn : n < 2 ^ 64) :
    parseUintLoop ds n = .ok v ↔
      ds.all isDigit = true ∧ decFold n ds < 2 ^ 64 ∧ v = decFold n ds := by
  induction ds generalizing n with
  | nil =>
    simp only [parseUintLoop, decFold, List.foldl_nil, List.all_nil, true_and, Except.ok.injEq]
    constructor
    · intro h; exact ⟨hn, h.symm⟩
    · intro h; exact h.2.symm
  | cons c cs ih =>
    cases hc : isDigit c with
    | false => simp [parseUintLoop, digitVal_of_not_isDigit hc, hc]
    | true =>
      have hle := le_decFold cs (n * 10 + (c.toNat - 48))
      simp only [parseUintLoop, digitVal_of_isDigit hc, List.all_cons, hc, Bool.true_and,
        decFold, List.foldl_cons] at hle ⊢
      by_cases h1 : n ≥ (2 ^ 64 - 1) / 10 + 1
      · rw [if_pos h1]
        constructor
        · intro h; cases h
        · rintro ⟨_, h2, _⟩
          norm_num at h1 h2
          omega
      · rw [if_neg h1]
        by_cases h2 : n * 10 + (c.toNat - 48) > 2 ^ 64 - 1
        · rw [if_pos h2]
          constructor
          · intro h; cases h
          · rintro ⟨_, h3, _⟩
            norm_num at h2 h3
            omega
        · rw [if_neg h2]
          have h3 : n * 10 + (c.toNat - 48) < 2 ^ 64 := by
            norm_num at h2 ⊢
            omega
          exact ih (n * 10 + (c.toNat - 48)) h3

theorem head_not_sign_of_isDigits {s : GoString} (h : isDigits s = true) :
    s.head? ≠ some '-' ∧ s.head? ≠ some '+' := by
  cases s with
  | nil => simp
  | cons c cs =>
    simp only [isDigits, List.all_cons, Bool.and_eq_true, isDigit, decide_eq_true_eq] at h
    have hc := h.2.1
    constructor <;> (simp only [List.head?_cons, ne_eq, Option.some.injEq]; rintro rfl; revert hc; decide)

/-- On a string of digits whose value fits an `int`, `Atoi` returns the
value. -/
theorem Atoi_of_isDigits (s : GoString) (hd : isDigits s = true) (hv : decValue s < 2 ^ 63) :
    Atoi s = .ok (decValue s : Int) := by
  obtain ⟨hm, hp⟩ := head_not_sign_of_isDigits hd
  have hne : s ≠ [] := by
    rintro rfl
    simp [isDigits] at hd
  have hall : s.all isDigit = true := by
    simp only [isDigits, Bool.and_eq_true] at hd
    exact hd.2
  have hlen : 0 < s.length := List.length_pos.mpr hne
  unfold Atoi
  by_cases hfast : 0 < s.length ∧ s.length < 19
  · rw [if_pos hfast]
    have hloop : atoiFastLoop s ((0 : Nat) : Int) = some (decValue s : Int) :=
      (atoiFastLoop_eq_some_iff s 0 _).mpr ⟨hall, rfl⟩
    simp only [hm, hp, or_self, if_false]
    rw [if_neg (by omega)]
    simp only [Nat.cast_zero] at hloop
    rw [hloop]
  · rw [if_neg hfast]
    unfold ParseInt
    rw [if_neg hne]
    have hu : ParseUint s = .ok (decValue s) := by
      unfold ParseUint
      rw [if_neg hne]
      exact (parseUintLoop_eq_ok_iff s 0 _ (by norm_num)).mpr
        ⟨hall, by unfold decValue at hv; omega, rfl⟩
    simp only [hm, hp, or_self, if_false, hu]
    simp [hv]
    omega

theorem ParseUint_eq_ok_iff (s : GoString) (v : Nat) :
    ParseUint s = .ok v ↔ isDigits s = true ∧ decValue s < 2 ^ 64 ∧ v = decValue s := by
  unfold ParseUint
  by_cases hne : s = []
  · subst hne
    simp [isDigits]
  · rw [if_neg hne, parseUintLoop_eq_ok_iff s 0 v (by norm_num)]
    simp [isDigits, decValue, hne]

theorem atoiFast_eq_some_iff (s : GoString) (v : Int) :
    (¬ s.length < 1 ∧ atoiFastLoop s 0 = some v) ↔ isDigits s = true ∧ v = (decValue s : Int) := by
  have h := atoiFastLoop_eq_some_iff s 0 v
  simp only [Nat.cast_zero] at h
  rw [h]
  cases s with
  | nil => simp [isDigits]
  | cons c cs => simp [isDigits, decValue]

/-- Whenever `Atoi` returns a number, its argument is a decimal integer with an
optional sign and the number is the integer it writes. -/
theorem Atoi_ok_imp (s : GoString) (v : Int) (h : Atoi s = .ok v) :
    isDecimalInteger s = true ∧ v = signedValue s := by
  cases s with
  | nil => simp [Atoi, ParseInt] at h
  | cons c cs =>
    unfold Atoi at h
    by_cases hfast : 0 < (c :: cs).length ∧ (c :: cs).length < 19
    · rw [if_pos hfast] at h
      by_cases hm : c = '-'
      · subst hm
        simp only [List.head?_cons, true_or, if_true, List.tail_cons] at h
        by_cases hl : cs.length < 1
        · rw [if_pos hl] at h; cases h
        · rw [if_neg hl] at h
          cases hloop : atoiFastLoop cs 0 with
          | none => rw [hloop] at h; cases h
          | some n =>
            rw [hloop] at h
            obtain ⟨hd, hn⟩ := (atoiFast_eq_some_iff cs n).mp ⟨hl, hloop⟩
            simp only [Except.ok.injEq] at h
            simp [isDecimalInteger, signedValue, hd, ← h, hn]
      · by_cases hp : c = '+'
        · subst hp
          simp only [List.head?_cons, Option.some.injEq, hm, or_true, if_true, if_false,
            List.tail_cons] at h
          by_cases hl : cs.length < 1
          · rw [if_pos hl] at h; cases h
          · rw [if_neg hl] at h
            cases hloop : atoiFastLoop cs 0 with
            | none => rw [hloop] at h; cases h
            | some n =>
              rw [hloop] at h
              obtain ⟨hd, hn⟩ := (atoiFast_eq_some_iff cs n).mp ⟨hl, hloop⟩
              simp only [Except.ok.injEq] at h
              simp [isDecimalInteger, signedValue, hd, ← h, hn, hm]
        · simp only [List.head?_cons, Option.some.injEq, hm, hp, or_self, if_false] at h
          by_cases hl : (c :: cs).length < 1
          · rw [if_pos hl] at h; cases h
          · rw [if_neg hl] at h
            cases hloop : atoiFastLoop (c :: cs) 0 with
            | none => rw [hloop] at h; cases h
            | some n =>
              rw [hloop] at h
              obtain ⟨hd, hn⟩ := (atoiFast_eq_some_iff (c :: cs) n).mp ⟨hl, hloop⟩
              simp only [Except.ok.injEq] at h
              simp [isDecimalInteger, signedValue, hd, ← h, hn, hm, hp]
    · rw [if_neg hfast] at h
      unfold ParseInt at h
      rw [if_neg (by simp)] at h
      by_cases hm : c = '-'
      · subst hm
        simp only [List.head?_cons, or_true, if_true, List.tail_cons] at h
        cases hu : ParseUint cs with
        | error e => rw [hu] at h; cases e <;> cases h
        | ok un =>
          rw [hu] at h
          obtain ⟨hd, _, hn⟩ := (ParseUint_eq_ok_iff cs un).mp hu
          simp only [not_true_eq_false, false_and, if_false, true_and] at h
          split at h
          · cases h
          · simp only [Except.ok.injEq] at h
            simp [isDecimalInteger, signedValue, hd, ← h, hn]
      · by_cases hp : c = '+'
        · subst hp
          simp only [List.head?_cons, Option.some.injEq, hm, true_or, if_true, if_false,
            List.tail_cons] at h
          cases hu : ParseUint cs with
          | error e => rw [hu] at h; cases e <;> cases h
          | ok un =>
            rw [hu] at h
            obtain ⟨hd, _, hn⟩ := (ParseUint_eq_ok_iff cs un).mp hu
            simp only [not_false_eq_true, true_and, false_and, if_false] at h
            split at h
            · cases h
            · simp only [Except.ok.injEq] at h
              simp [isDecimalInteger, signedValue, hd, ← h, hn, hm]
        · simp only [List.head?_cons, Option.some.injEq, hm, hp, or_self, if_false] at h
          cases hu : ParseUint (c :: cs) with
          | error e => rw [hu] at h; cases e <;> cases h
          | ok un =>
            rw [hu] at h
            obtain ⟨hd, _, hn⟩ := (ParseUint_eq_ok_iff (c :: cs) un).mp hu
            simp only [not_false_eq_true, true_and, false_and, if_false] at h
            split at h
            · cases h
            · simp only [Except.ok.injEq] at h
              simp [isDecimalInteger, signedValue, hd, ← h, hn, hm, hp]

/-- On a string that is no decimal integer `Atoi` returns an error. -/
theorem Atoi_error_of_not_decimal (s : GoString) (h : isDecimalInteger s = false) :
    ∃ e, Atoi s = .error e := by
  cases hr : Atoi s with
  | error e => exact ⟨e, rfl⟩
  | ok v =>
    have := (Atoi_ok_imp s v hr).1
    rw [h] at this
    cases this

/-! ## Lemmas on `ParseTime` -/

theorem ParseTime_loop_error (times : List GoString) (n : Nat) (sec : Int)
    (h : ∃ i, i < n ∧ ∃ e, Atoi (times.getD i []) = .error e) :
    ∃ e, ParseTime.loop times n sec = (0, some e) := by
  induction n generalizing sec with
  | zero =>
    obtain ⟨i, hi, _⟩ := h
    omega
  | succ k ih =>
    unfold ParseTime.loop
    cases hk : Atoi (times.getD k []) with
    | error e => exact ⟨e, rfl⟩
    | ok t =>
      obtain ⟨i, hi, e, he⟩ := h
      have hik : i ≠ k := by
        rintro rfl
        rw [hk] at he
        cases he
      exact ih _ ⟨i, by omega, e, he⟩

theorem ParseTime_loop_snd_none (times : List GoString) (n : Nat) (sec : Int)
    (h : (ParseTime.loop times n sec).2 = none) :
    ∀ i, i < n → ∃ v, Atoi (times.getD i []) = .ok v := by
  intro i hi
  cases hr : Atoi (times.getD i []) with
  | ok v => exact ⟨v, rfl⟩
  | error e =>
    obtain ⟨e2, he2⟩ := ParseTime_loop_error times n sec ⟨i, hi, e, hr⟩
    rw [he2] at h
    cases h

theorem wrapInt_of_fits (x : Int) (h0 : -2 ^ 63 ≤ x) (h1 : x < 2 ^ 63) : wrapInt x = x := by
  unfold wrapInt
  norm_num at h0 h1 ⊢
  omega

/-- When `Atoi` accepts every component and there are at most three of them,
`ParseTime` returns the positional sum of the component values, reduced to an
`int`. -/
theorem ParseTime_eq_of_Atoi (s : GoString) (f : GoString → Int)
    (hlen : (strings_Split s ':').length ≤ 3)
    (h : ∀ c ∈ strings_Split s ':', Atoi c = .ok (f c)) :
    ParseTime s = (wrapInt (positional ((strings_Split s ':').map f)), none) := by
  unfold ParseTime
  simp only [gt_iff_lt, Nat.not_lt.mpr hlen, if_false]
  generalize strings_Split s ':' = times at hlen h
  match times, hlen, h with
  | [], _, _ => simp [ParseTime.loop, positional, wrapInt]
  | [a], _, h =>
    have ha := h a (by simp)
    simp only [ParseTime.loop, List.length_cons, List.length_nil, List.getD_cons_zero, ha,
      positional, pow60, wrapInt]
    simp
  | [a, b], _, h =>
    have ha := h a (by simp)
    have hb := h b (by simp)
    simp only [ParseTime.loop, List.length_cons, List.length_nil, List.getD_cons_zero,
      List.getD_cons_succ, ha, hb, positional, pow60, wrapInt]
    simp [List.enum, List.enumFrom]
    omega
  | [a, b, c], _, h =>
    have ha := h a (by simp)
    have hb := h b (by simp)
    have hc := h c (by simp)
    simp only [ParseTime.loop, List.length_cons, List.length_nil, List.getD_cons_zero,
      List.getD_cons_succ, ha, hb, hc, positional, pow60, wrapInt]
    simp [List.enum, List.enumFrom]
    omega
  | _ :: _ :: _ :: _ :: _, hlen, _ => simp at hlen

theorem positional_nonneg (vals : List Int) (h : ∀ v ∈ vals, 0 ≤ v) : 0 ≤ positional vals := by
  unfold positional
  apply List.sum_nonneg
  intro x hx
  obtain ⟨pv, hpv, rfl⟩ := List.mem_map.mp hx
  have hmem : pv.2 ∈ vals := List.mem_reverse.mp (List.snd_mem_of_mem_enum hpv)
  have := h pv.2 hmem
  positivity

theorem signedValue_nonneg (c : GoString) (h : c.head? ≠ some '-') : 0 ≤ signedValue c := by
  cases c with
  | nil => simp [signedValue]
  | cons a as =>
    have ha : a ≠ '-' := by
      rintro rfl
      simp at h
    unfold signedValue
    simp only [ha, if_false]
    split <;> exact Int.natCast_nonneg _

theorem ParseTime_snd_none_imp (s : GoString) (h : (ParseTime s).2 = none) :
    (strings_Split s ':').length ≤ 3 ∧
      ∀ c ∈ strings_Split s ':', Atoi c = .ok (signedValue c) := by
  unfold ParseTime at h
  by_cases hlen : (strings_Split s ':').length > 3
  · simp [hlen] at h
  · simp only [hlen, if_false] at h
    refine ⟨by omega, ?_⟩
    intro c hc
    obtain ⟨i, hi, rfl⟩ := List.mem_iff_getElem.mp hc
    obtain ⟨v, hv⟩ := ParseTime_loop_snd_none _ _ _ h i hi
    rw [List.getD_eq_getElem _ _ hi] at hv
    rw [hv, (Atoi_ok_imp _ v hv).2]

/-! ## Theorems on `ParseTime` -/

/-- C1 (amended): for a string whose at most three colon-separated components
are each one or more decimal digits with a value below `2 ^ 63`, `ParseTime`
returns no error and the positional sum of the components reduced to a 64-bit
`int`; when the sum itself is below `2 ^ 63` the result is the sum. -/
theorem ParseTime_positional_in_range (s : GoString)
    (hlen : (strings_Split s ':').length ≤ 3)
    (hdig : ∀ c ∈ strings_Split s ':', isDigits c = true ∧ decValue c < 2 ^ 63) :
    ParseTime s =
        (wrapInt (positional ((strings_Split s ':').map (fun c => (decValue c : Int)))), none) ∧
      (positional ((strings_Split s ':').map (fun c => (decValue c : Int))) < 2 ^ 63 →
        ParseTime s =
          (positional ((strings_Split s ':').map (fun c => (decValue c : Int))), none)) := by
  have hmain := ParseTime_eq_of_Atoi s (fun c => (decValue c : Int)) hlen
    (fun c hc => Atoi_of_isDigits c (hdig c hc).1 (hdig c hc).2)
  refine ⟨hmain, fun hfit => ?_⟩
  rw [hmain, wrapInt_of_fits _ _ hfit]
  have h0 : 0 ≤ positional ((strings_Split s ':').map (fun c => (decValue c : Int))) := by
    apply positional_nonneg
    intro v hv
    obtain ⟨c, _, rfl⟩ := List.mem_map.mp hv
    exact Int.natCast_nonneg _
  have : (-2 : Int) ^ 63 ≤ 0 := by norm_num
  omega

/-- Witness of C1: `"01:02:03"` gives `3723` seconds. -/
theorem ParseTime_positional_in_range_witness :
    ParseTime "01:02:03".toList = (3723, none) :=
  (ParseTime_positional_in_range "01:02:03".toList (by decide) (by decide)).2 (by decide)

/-- C1 fails as stated: the single component `9223372036854775808` (`2 ^ 63`) is
a non-negative decimal integer, and `ParseTime` returns a range error; the
components `2562047788015216:0:0` are accepted but the result is not their
positional sum. -/
theorem ParseTime_unbounded_counterexample :
    (isDigits "9223372036854775808".toList = true ∧
      strings_Split "9223372036854775808".toList ':' = ["9223372036854775808".toList] ∧
      ParseTime "9223372036854775808".toList =
        (0, some (.numRange "9223372036854775808".toList))) ∧
    (ParseTime "2562047788015216:0:0".toList = (-9223372036854774016, none) ∧
      positional [2562047788015216, 0, 0] = 9223372036854777600) := by
  decide

/-- C2: when splitting `s` at `:` gives more than three components, or some
component is not a decimal integer (an optional sign followed by one or more
digits; the empty component included), `ParseTime` returns the value `0` and a
non-nil error. -/
theorem ParseTime_rejects_malformed (s : GoString)
    (h : (strings_Split s ':').length > 3 ∨
      ∃ c ∈ strings_Split s ':', isDecimalInteger c = false) :
    ∃ e, ParseTime s = (0, some e) := by
  unfold ParseTime
  by_cases hlen : (strings_Split s ':').length > 3
  · exact ⟨.invalidFormat s, by simp [hlen]⟩
  · simp only [hlen, if_false]
    rcases h with h | ⟨c, hc, hbad⟩
    · exact absurd h hlen
    · obtain ⟨i, hi, rfl⟩ := List.mem_iff_getElem.mp hc
      obtain ⟨e, he⟩ := Atoi_error_of_not_decimal _ hbad
      apply ParseTime_loop_error
      exact ⟨i, hi, e, by rw [List.getD_eq_getElem _ _ hi]; exact he⟩

/-- Witness of C2: the string `1::2` has an empty component. -/
theorem ParseTime_rejects_malformed_witness :
    ∃ e, ParseTime "1::2".toList = (0, some e) :=
  ParseTime_rejects_malformed "1::2".toList (Or.inr ⟨[], by decide, by decide⟩)

/-- C9 fails as stated: the components `-5` and `-30` are negative integers
and `ParseTime` returns no error; the result for `-5` is negative. -/
theorem ParseTime_negative_counterexample :
    ParseTime "-5".toList = (-5, none) ∧ ParseTime "1:-30".toList = (30, none) := by
  decide

/-- C9 (amended): whenever `ParseTime` returns no error, its result is the
positional sum of the signed values of the components, reduced to a 64-bit
`int`; the result is non-negative when, in addition, no component begins
with `-` and the positional sum is below `2 ^ 63`. -/
theorem ParseTime_result_signed (s : GoString) (hok : (ParseTime s).2 = none) :
    (ParseTime s).1 = wrapInt (positional ((strings_Split s ':').map signedValue)) ∧
      ((∀ c ∈ strings_Split s ':', c.head? ≠ some '-') →
        positional ((strings_Split s ':').map signedValue) < 2 ^ 63 →
        0 ≤ (ParseTime s).1) := by
  obtain ⟨hlen, hat⟩ := ParseTime_snd_none_imp s hok
  have hmain := ParseTime_eq_of_Atoi s signedValue hlen hat
  refine ⟨by rw [hmain], fun hsign hfit => ?_⟩
  have h0 : 0 ≤ positional ((strings_Split s ':').map signedValue) := by
    apply positional_nonneg
    intro v hv
    obtain ⟨c, hc, rfl⟩ := List.mem_map.mp hv
    exact signedValue_nonneg c (hsign c hc)
  rw [hmain, wrapInt_of_fits _ (by have : (-2 : Int) ^ 63 ≤ 0 := by norm_num
                                   omega) hfit]
  exact h0

/-- Witness of C9: `2:05` is accepted and gives `125`, a non-negative
number. -/
theorem ParseTime_result_signed_witness :
    (ParseTime "2:05".toList).1 = wrapInt (positional [2, 5]) ∧ 0 ≤ (ParseTime "2:05".toList).1 :=
  ⟨(ParseTime_result_signed "2:05".toList (by decide)).1,
    (ParseTime_result_signed "2:05".toList (by decide)).2 (by decide) (by decide)⟩

/-! ## Lemmas on `ReadLine` and `readConfig` -/

theorem ReadLine_terminated (size : Nat) (l rest : GoString) (hnl : '\n' ∉ l)
    (hlen : l.length < size) :
    ReadLine size (l ++ '\n' :: rest) = some (dropCR l, false, rest) := by
  have hwin : (l ++ '\n' :: rest).take size = l ++ '\n' :: rest.take (size - l.length - 1) := by
    rw [List.take_append_eq_append_take, List.take_of_length_le (by omega)]
    obtain ⟨k, hk⟩ : ∃ k, size - l.length = k + 1 := ⟨size - l.length - 1, by omega⟩
    rw [hk, List.take_succ_cons]
    simp
  have htw : (l ++ '\n' :: rest.take (size - l.length - 1)).takeWhile (fun c => c != '\n') = l := by
    rw [List.takeWhile_append_of_pos]
    · simp
    · intro a ha
      simp only [bne_iff_ne, ne_eq]
      rintro rfl
      exact hnl ha
  unfold ReadLine
  rw [if_neg (by simp)]
  simp only [hwin, htw]
  rw [if_pos (by simp)]
  simp

theorem ReadLine_unterminated (size : Nat) (l : GoString) (hne : l ≠ []) (hnl : '\n' ∉ l)
    (hlen : l.length < size) :
    ReadLine size l = some (l, false, []) := by
  have hwin : l.take size = l := List.take_of_length_le (by omega)
  have htw : l.takeWhile (fun c => c != '\n') = l := by
    rw [List.takeWhile_eq_self_iff]
    intro a ha
    simp only [bne_iff_ne, ne_eq]
    rintro rfl
    exact hnl ha
  unfold ReadLine
  rw [if_neg hne]
  simp only [hwin, htw, lt_self_iff_false, if_false, hlen, if_true]

theorem ReadLine_consumes (data l rest : GoString) (m : Bool)
    (h : ReadLine defaultBufSize data = some (l, m, rest)) : rest.length < data.length := by
  unfold ReadLine at h
  by_cases hd : data = []
  · simp [hd] at h
  · have hpos : 0 < data.length := List.length_pos.mpr hd
    rw [if_neg hd] at h
    simp only at h
    split at h
    · simp only [Option.some.injEq, Prod.mk.injEq] at h
      rw [← h.2.2, List.length_drop]
      omega
    · split at h
      · simp only [Option.some.injEq, Prod.mk.injEq] at h
        rw [← h.2.2]
        exact hpos
      · split at h <;>
        · simp only [Option.some.injEq, Prod.mk.injEq] at h
          rw [← h.2.2, List.length_drop]
          simp only [defaultBufSize] at *
          omega

/-- The bound on the iterations in `readConfig` is never reached: every
larger bound gives the same result. -/
theorem readConfig_loop_fuel (f1 f2 : Nat) (data : GoString) (clips : List clip)
    (h1 : data.length < f1) (h2 : data.length < f2) :
    readConfig.loop f1 data clips = readConfig.loop f2 data clips := by
  induction f1 generalizing f2 data clips with
  | zero => omega
  | succ k ih =>
    obtain ⟨k2, rfl⟩ : ∃ k2, f2 = k2 + 1 := ⟨f2 - 1, by omega⟩
    unfold readConfig.loop
    cases hr : ReadLine defaultBufSize data with
    | none => rfl
    | some r =>
      obtain ⟨l, m, rest⟩ := r
      have hc := ReadLine_consumes data l rest m hr
      simp only
      split
      · rfl
      · exact ih k2 rest _ (by omega) (by omega)

/-- The loop of `readConfig` returns a result of the Go function whenever the
bound on the iterations exceeds the length of the input: it never stops for
lack of iterations. -/
theorem readConfig_loop_returns (fuel : Nat) (data : GoString) (clips : List clip)
    (h : data.length < fuel) : readConfig.loop fuel data clips ≠ (none, none) := by
  induction fuel generalizing data clips with
  | zero => omega
  | succ k ih =>
    unfold readConfig.loop
    cases hr : ReadLine defaultBufSize data with
    | none => simp
    | some r =>
      obtain ⟨l, m, rest⟩ := r
      have hc := ReadLine_consumes data l rest m hr
      simp only
      split
      · simp
      · exact ih rest _ (by omega)

theorem length_joinLines_append (lines : List GoString) (last : GoString) :
    (joinLines lines ++ last).length = (lines.map (fun l => l.length + 1)).sum + last.length := by
  induction lines with
  | nil => simp [joinLines]
  | cons l ls ih =>
    simp only [joinLines, List.append_assoc, List.cons_append, List.length_append,
      List.length_cons, List.map_cons, List.sum_cons] at ih ⊢
    omega

/-- On an input of short lines the loop of `readConfig` treats the lines one
by one: each terminated line without its carriage return, then the
unterminated rest when there is one. -/
theorem readConfig_loop_lines (lines : List GoString) (last : GoString) (clips : List clip)
    (fuel : Nat) (hl : ∀ l ∈ lines, shortLine l) (hlast : shortLine last)
    (hfuel : (joinLines lines ++ last).length < fuel) :
    readConfig.loop fuel (joinLines lines ++ last) clips =
      processLines (lines.map dropCR ++ if last = [] then [] else [last]) clips := by
  induction lines generalizing clips fuel with
  | nil =>
    obtain ⟨k, rfl⟩ : ∃ k, fuel = k + 1 := ⟨fuel - 1, by omega⟩
    simp only [joinLines, List.nil_append, List.map_nil] at hfuel ⊢
    by_cases hne : last = []
    · subst hne
      simp [readConfig.loop, ReadLine, processLines]
    · rw [if_neg hne]
      unfold readConfig.loop
      rw [ReadLine_unterminated _ last hne hlast.1 hlast.2]
      simp only [processLines]
      split
      · rfl
      · have hk : 0 < k := by
          have := List.length_pos.mpr hne
          omega
        obtain ⟨k2, rfl⟩ : ∃ k2, k = k2 + 1 := ⟨k - 1, by omega⟩
        simp [readConfig.loop, ReadLine]
  | cons l ls ih =>
    obtain ⟨k, rfl⟩ : ∃ k, fuel = k + 1 := ⟨fuel - 1, by omega⟩
    have hsl := hl l (by simp)
    simp only [joinLines, List.append_assoc, List.cons_append, List.map_cons] at hfuel ⊢
    unfold readConfig.loop
    rw [ReadLine_terminated _ l _ hsl.1 hsl.2]
    simp only [processLines]
    split
    · rfl
    · apply ih _ _ (fun x hx => hl x (by simp [hx]))
      simp only [List.length_append, List.length_cons] at hfuel ⊢
      omega

theorem strings_Split_of_not_mem (s : GoString) (sep : Char) (h : sep ∉ s) :
    strings_Split s sep = [s] := by
  induction s with
  | nil => rfl
  | cons c cs ih =>
    have hc : c ≠ sep := fun e => h (by simp [e])
    have hcs : sep ∉ cs := fun e => h (by simp [e])
    simp [strings_Split, hc, ih hcs]

theorem strings_Split_append_sep (a b : GoString) (sep : Char) (h : sep ∉ a) :
    strings_Split (a ++ sep :: b) sep = a :: strings_Split b sep := by
  induction a with
  | nil => simp [strings_Split]
  | cons c cs ih =>
    have hc : c ≠ sep := fun e => h (by simp [e])
    have hcs : sep ∉ cs := fun e => h (by simp [e])
    simp [strings_Split, hc, ih hcs]

theorem length_strings_Split (s : GoString) (sep : Char) :
    (strings_Split s sep).length = s.count sep + 1 := by
  induction s with
  | nil => rfl
  | cons c cs ih =>
    unfold strings_Split
    by_cases hc : c = sep
    · subst hc
      simp [ih]
    · rw [if_neg hc, List.count_cons_of_ne (Ne.symm hc)]
      split
      · rename_i h0
        exact absurd h0 (strings_Split_ne_nil cs sep)
      · rename_i piece pieces h0
        rw [h0] at ih
        simpa using ih

theorem count_dropCR (l : GoString) : (dropCR l).count ' ' = l.count ' ' := by
  unfold dropCR
  split
  · rename_i h
    obtain ⟨ys, rfl⟩ := List.getLast?_eq_some_iff.mp h
    simp [List.count_append]
  · rfl

theorem ReadLine_full (size : Nat) (w rest : GoString) (hsize : w.length = size)
    (hpos : 0 < size) (hnl : '\n' ∉ w) (hcr : w.getLast? ≠ some '\r') :
    ReadLine size (w ++ rest) = some (w, true, rest) := by
  have hne : w ++ rest ≠ [] := by
    intro h
    have hw : w = [] := (List.append_eq_nil.mp h).1
    rw [hw] at hsize
    simp only [List.length_nil] at hsize
    omega
  have hwin : (w ++ rest).take size = w := by
    rw [← hsize, List.take_left]
  have htw : w.takeWhile (fun c => c != '\n') = w := by
    rw [List.takeWhile_eq_self_iff]
    intro a ha
    simp only [bne_iff_ne, ne_eq]
    rintro rfl
    exact hnl ha
  unfold ReadLine
  rw [if_neg hne]
  simp only [hwin, htw, lt_self_iff_false, if_false, hcr]
  rw [if_neg (by rw [List.length_append]; omega)]
  rw [← hsize, List.drop_left]

/-- A first line of `defaultBufSize` bytes without a space is handed to the
loop of `readConfig` as a line of its own, whatever follows it, and is
rejected. -/
theorem readConfig_long_first_line (w rest : GoString) (hsize : w.length = defaultBufSize)
    (hnl : '\n' ∉ w) (hsp : ' ' ∉ w) (hcr : w.getLast? ≠ some '\r') :
    readConfig (w ++ rest) = (none, some (.invalidFormat w)) := by
  unfold readConfig readConfig.loop
  rw [ReadLine_full defaultBufSize w rest hsize (by decide) hnl hcr]
  simp only
  rw [strings_Split_of_not_mem w ' ' hsp]
  simp

theorem processLines_error (ls : List GoString) (clips : List clip)
    (h : ∃ l ∈ ls, (strings_Split l ' ').length ≠ 2) :
    ∃ before l after, ls = before ++ l :: after ∧
      (∀ x ∈ before, (strings_Split x ' ').length = 2) ∧
      (strings_Split l ' ').length ≠ 2 ∧
      processLines ls clips = (none, some (.invalidFormat l)) := by
  induction ls generalizing clips with
  | nil => simp at h
  | cons a as ih =>
    unfold processLines
    by_cases ha : (strings_Split a ' ').length ≠ 2
    · exact ⟨[], a, as, rfl, by simp, ha, by rw [if_pos ha]⟩
    · rw [if_neg ha]
      obtain ⟨l, hl, hbad⟩ := h
      have hl2 : l ∈ as := by
        rcases List.mem_cons.mp hl with rfl | hmem
        · exact absurd hbad ha
        · exact hmem
      obtain ⟨before, l2, after, heq, hgood, hb, hp⟩ := ih _ ⟨l, hl2, hbad⟩
      refine ⟨a :: before, l2, after, by rw [heq]; rfl, ?_, hb, hp⟩
      intro x hx
      rcases List.mem_cons.mp hx with rfl | hmem
      · exact not_not.mp ha
      · exact hgood x hmem

theorem processLines_wellFormed (pairs : List (GoString × GoString)) (clips : List clip)
    (h : ∀ t ∈ pairs, ' ' ∉ t.1 ∧ ' ' ∉ t.2) :
    processLines (pairs.map (fun t => t.1 ++ ' ' :: t.2)) clips =
      (some (clips ++ pairs.map (fun t => ⟨t.1, t.2⟩)), none) := by
  induction pairs generalizing clips with
  | nil => simp [processLines]
  | cons t ts ih =>
    obtain ⟨h1, h2⟩ := h t (by simp)
    simp only [List.map_cons, processLines]
    rw [strings_Split_append_sep _ _ _ h1, strings_Split_of_not_mem _ _ h2]
    simp only [List.length_cons, List.length_nil, ne_eq, not_true_eq_false, if_false,
      List.getD_cons_zero, List.getD_cons_succ]
    rw [ih _ (fun x hx => h x (by simp [hx]))]
    simp

theorem dropCR_of_not_mem (a b : GoString) (h : '\r' ∉ b) :
    dropCR (a ++ ' ' :: b) = a ++ ' ' :: b := by
  unfold dropCR
  rw [if_neg]
  intro hl
  have hmem := List.mem_of_getLast?_eq_some hl
  rw [List.getLast?_append_of_ne_nil _ (by simp)] at hl
  have hmem := List.mem_of_getLast?_eq_some hl
  rcases List.mem_cons.mp hmem with h1 | h1
  · revert h1; decide
  · exact h h1

/-! ## Theorems on `readConfig` -/

/-- C3, the failing input: the input is the single line made of `4096`
letters `a`, one space and the token `b`, ended by a line feed. The loop of
`readConfig` receives the first `4096` bytes as a line of their own (the flag
`isPrefix` of `ReadLine` is dropped) and returns a format error and a nil
list, where the claim asks for one entry. -/
theorem readConfig_long_line_rejected :
    readConfig (List.replicate 4096 'a' ++ " b\n".toList) =
      (none, some (.invalidFormat (List.replicate 4096 'a'))) :=
  readConfig_long_first_line (List.replicate 4096 'a') " b\n".toList
    (List.length_replicate 4096 'a')
    (fun h => absurd (List.eq_of_mem_replicate h) (by decide))
    (fun h => absurd (List.eq_of_mem_replicate h) (by decide))
    (fun h => absurd (List.eq_of_mem_replicate (List.mem_of_getLast?_eq_some h)) (by decide))

/-- The behaviour that C3 describes, on lines that fit the buffer: for an input
of lines `<start> <end>`, each shorter than `defaultBufSize` bytes and with
tokens free of spaces, line feeds and carriage returns, `readConfig` returns
no error and one entry per line, in line order, with the tokens verbatim. -/
theorem readConfig_wellFormed_short (pairs : List (GoString × GoString))
    (h : ∀ t ∈ pairs, ' ' ∉ t.1 ∧ ' ' ∉ t.2 ∧ '\n' ∉ t.1 ∧ '\n' ∉ t.2 ∧ '\r' ∉ t.2 ∧
      t.1.length + t.2.length + 1 < defaultBufSize) :
    readConfig (joinLines (pairs.map (fun t => t.1 ++ ' ' :: t.2))) =
      (some (pairs.map (fun t => ⟨t.1, t.2⟩)), none) := by
  have hshort : ∀ l ∈ pairs.map (fun t => t.1 ++ ' ' :: t.2), shortLine l := by
    intro l hl
    obtain ⟨t, ht, rfl⟩ := List.mem_map.mp hl
    obtain ⟨_, _, h3, h4, _, h6⟩ := h t ht
    refine ⟨?_, ?_⟩
    · simp only [List.mem_append, List.mem_cons, not_or]
      exact ⟨h3, by decide, h4⟩
    · simp only [List.length_append, List.length_cons]
      omega
  have hcr : (pairs.map (fun t => t.1 ++ ' ' :: t.2)).map dropCR =
      pairs.map (fun t => t.1 ++ ' ' :: t.2) := by
    rw [List.map_map]
    apply List.map_congr_left
    intro t ht
    exact dropCR_of_not_mem t.1 t.2 (h t ht).2.2.2.2.1
  have hloop := readConfig_loop_lines (pairs.map (fun t => t.1 ++ ' ' :: t.2)) [] []
    ((joinLines (pairs.map (fun t => t.1 ++ ' ' :: t.2))).length + 1) hshort
    ⟨by simp, by decide⟩ (by simp)
  simp only [List.append_nil, if_true, hcr] at hloop
  unfold readConfig
  rw [hloop, processLines_wellFormed pairs [] (fun t ht => ⟨(h t ht).1, (h t ht).2.1⟩)]
  simp

/-- C4 fails as stated: the line made of the single token `00:00:10` followed
by a space is accepted, as an entry with an empty end marker. -/
theorem readConfig_trailing_space_counterexample :
    tokens "00:00:10 ".toList = ["00:00:10".toList] ∧
      readConfig "00:00:10 ".toList = (some [⟨"00:00:10".toList, []⟩], none) := by
  decide

/-- C4 (amended): for an input of lines that each fit the buffer (terminated
lines `lines`, then a possibly empty unterminated rest `last`), if some line
does not consist of exactly two whitespace-separated tokens and does not
contain exactly one space either (so that it does not split at single spaces
into two fields), `readConfig` returns a nil list and a format error, whatever
lines precede that line; the error names the first line read that does not
split at single spaces into two fields. -/
theorem readConfig_rejects_bad_line (lines : List GoString) (last : GoString)
    (hl : ∀ l ∈ lines, shortLine l) (hlast : shortLine last)
    (hbad : ∃ l ∈ lines ++ (if last = [] then [] else [last]),
      (tokens l).length ≠ 2 ∧ (strings_Split l ' ').length ≠ 2) :
    ∃ before l after, linesRead lines last = before ++ l :: after ∧
      (∀ x ∈ before, (strings_Split x ' ').length = 2) ∧
      (strings_Split l ' ').length ≠ 2 ∧
      readConfig (joinLines lines ++ last) = (none, some (.invalidFormat l)) := by
  unfold readConfig
  rw [readConfig_loop_lines lines last [] _ hl hlast (by omega)]
  have hex : ∃ l ∈ linesRead lines last, (strings_Split l ' ').length ≠ 2 := by
    obtain ⟨l, hmem, _, hlen⟩ := hbad
    rcases List.mem_append.mp hmem with hm | hm
    · refine ⟨dropCR l, List.mem_append_left _ (List.mem_map_of_mem _ hm), ?_⟩
      rw [length_strings_Split, count_dropCR, ← length_strings_Split]
      exact hlen
    · exact ⟨l, List.mem_append_right _ hm, hlen⟩
  exact processLines_error _ [] hex

/-- Witness of C4: a well-formed line followed by a line of a single token;
the error names that second line. -/
theorem readConfig_rejects_bad_line_witness :
    ∃ before l after,
      linesRead ["00:00:12 00:08:00".toList, "00:00:10".toList] [] = before ++ l :: after ∧
      (∀ x ∈ before, (strings_Split x ' ').length = 2) ∧
      (strings_Split l ' ').length ≠ 2 ∧
      readConfig (joinLines ["00:00:12 00:08:00".toList, "00:00:10".toList] ++ []) =
        (none, some (.invalidFormat l)) :=
  readConfig_rejects_bad_line ["00:00:12 00:08:00".toList, "00:00:10".toList] []
    (by unfold shortLine; decide) (by unfold shortLine; decide)
    ⟨"00:00:10".toList, by decide, by decide, by decide⟩

/-! ## Theorems on `ensureTmpDir` -/

/-- C8, the failing inputs: for `my.movie.mkv`, `./movie.mkv` and
`a.b/movie.mkv` the directory name returned by `ensureTmpDir` is `my_tmp`,
`_tmp` and `a_tmp`, while the base name followed by `_tmp` is `my.movie_tmp`,
`movie_tmp` and `movie_tmp`; for `movie.mkv` both are `movie_tmp`. -/
theorem ensureTmpDir_first_dot (mkdirAll : GoString → Option GoError) :
    ((ensureTmpDir mkdirAll "my.movie.mkv".toList).1 = "my_tmp".toList ∧
      baseName "my.movie.mkv".toList ++ "_tmp".toList = "my.movie_tmp".toList) ∧
    ((ensureTmpDir mkdirAll "./movie.mkv".toList).1 = "_tmp".toList ∧
      baseName "./movie.mkv".toList ++ "_tmp".toList = "movie_tmp".toList) ∧
    ((ensureTmpDir mkdirAll "a.b/movie.mkv".toList).1 = "a_tmp".toList ∧
      baseName "a.b/movie.mkv".toList ++ "_tmp".toList = "movie_tmp".toList) ∧
    ((ensureTmpDir mkdirAll "movie.mkv".toList).1 = "movie_tmp".toList ∧
      baseName "movie.mkv".toList ++ "_tmp".toList = "movie_tmp".toList) := by
  refine ⟨⟨?_, ?_⟩, ⟨?_, ?_⟩, ⟨?_, ?_⟩, ⟨?_, ?_⟩⟩ <;> first | decide | rfl

/-! ## Theorems on `convert` -/

/-- C6: for an argument vector whose last element is `output`: when `output`
exists, `convert` returns nil and leaves the world as it is (the engine is not
run); when it does not exist, the engine is run once, on `args`, and `convert`
returns the result of that run. When the first run creates `output`, a second
call with the same destination returns nil without running the engine, so
that the two calls run it once. -/
theorem convert_guard (engine : Engine) (args : List GoString) (output : GoString) (w : World)
    (hlast : args.getLast? = some output) :
    (output ∈ w.files → convert engine args w = some (none, w)) ∧
    (output ∉ w.files →
      convert engine args w = some ((engine args w.files).1,
        { w with files := (engine args w.files).2, launched := w.launched ++ [args] })) ∧
    (∀ args2 : List GoString, args2.getLast? = some output → output ∉ w.files →
      output ∈ (engine args w.files).2 →
      ∃ r1 w1, convert engine args w = some (r1, w1) ∧
        convert engine args2 w1 = some (none, w1) ∧
        w1.launched = w.launched ++ [args]) := by
  have hex : ∀ (a : List GoString) (v : World), a.getLast? = some output → output ∈ v.files →
      convert engine a v = some (none, v) := by
    intro a v ha hv
    simp [convert, ha, os_Stat, hv]
  have hrun : output ∉ w.files →
      convert engine args w = some ((engine args w.files).1,
        { w with files := (engine args w.files).2, launched := w.launched ++ [args] }) := by
    intro hv
    simp [convert, hlast, os_Stat, hv, cmd_Run]
  refine ⟨hex args w hlast, hrun, ?_⟩
  intro args2 h2 hv hcreated
  exact ⟨_, _, hrun hv, hex args2 _ h2 hcreated, rfl⟩

/-- Witness of C6: the destination `movie_tmp/720pmovie.mkv` is absent at first
and created by the engine. -/
theorem convert_guard_witness :
    convert (fun a fs => (none, (a.getLast?).getD [] :: fs))
        ["-i".toList, "movie.mkv".toList, "movie_tmp/720pmovie.mkv".toList] ⟨[], [], [], []⟩ =
      some (none, ⟨[], ["movie_tmp/720pmovie.mkv".toList], [],
        [["-i".toList, "movie.mkv".toList, "movie_tmp/720pmovie.mkv".toList]]⟩) :=
  (convert_guard (fun a fs => (none, (a.getLast?).getD [] :: fs))
    ["-i".toList, "movie.mkv".toList, "movie_tmp/720pmovie.mkv".toList]
    "movie_tmp/720pmovie.mkv".toList ⟨[], [], [], []⟩ (by decide)).2.1 (by decide)

/-! ## Theorems on `split` -/

theorem split_step_core (engine : Engine) (input : GoString) (tasks : List (clip × GoString))
    (st : SplitState) (i : Nat) :
    (split.step engine input tasks st i).core =
      split.coreStep (tasks.map (fun t => t.2)) st.core i := by
  unfold split.step split.coreStep SplitState.core
  simp only [List.get?_eq_getElem?, List.getElem?_map]
  cases ht : tasks[i]? with
  | none => simp
  | some t =>
    obtain ⟨c, clipOut⟩ := t
    cases hg : st.gor[i]? with
    | none => simp
    | some g =>
      obtain ⟨pc, l⟩ := g
      match pc with
      | 0 => rfl
      | 1 => rfl
      | 2 => rfl
      | 3 => rfl
      | n + 4 => rfl

theorem split_fold_core (engine : Engine) (input : GoString) (tasks : List (clip × GoString))
    (schedule : List Nat) (st : SplitState) :
    (schedule.foldl (split.step engine input tasks) st).core =
      schedule.foldl (split.coreStep (tasks.map (fun t => t.2))) st.core := by
  induction schedule generalizing st with
  | nil => rfl
  | cons i rest ih => rw [List.foldl_cons, List.foldl_cons, ih, split_step_core]

theorem split_tasks_paths (clips : List clip) (workDir : GoString) :
    (clips.enum.map (fun ic => (ic.2, filepath_Join workDir (Sprintf_d_mp4 ic.1)))).map
        (fun t => t.2) =
      (List.range clips.length).map (segmentPath workDir) := by
  apply List.ext_getElem?
  intro i
  simp only [List.getElem?_map, List.getElem?_enum, List.getElem?_range, Option.map_map]
  by_cases h : i < clips.length
  · simp [List.getElem?_eq_getElem h, List.getElem?_range h, segmentPath]
  · simp [List.getElem?_eq_none (Nat.le_of_not_lt h), List.getElem?_eq_none
      (show (List.range clips.length).length ≤ i by simp; omega)]

/-- The value returned by `split` is made from the output paths and the
schedule alone: the engine, the markers of the clips, the input and the world
have no part in it. -/
theorem split_map_fst (engine : Engine) (schedule : List Nat) (clips : List clip)
    (workDir input : GoString) (w : World) :
    (split engine schedule clips workDir input w).map (fun r => r.1) =
      (splitOutputs ((List.range clips.length).map (segmentPath workDir)) schedule).map
        (fun outs => (outs, none)) := by
  have hcore := split_fold_core engine input
    (clips.enum.map (fun ic => (ic.2, filepath_Join workDir (Sprintf_d_mp4 ic.1)))) schedule
    ⟨w, List.replicate clips.length [], 0, List.replicate clips.length ⟨0, 0⟩⟩
  rw [split_tasks_paths] at hcore
  unfold split splitOutputs
  simp only [List.length_map, List.length_range]
  simp only [SplitState.core] at hcore
  rw [← hcore]
  simp only
  split <;> rfl

theorem coreStep_gor_length (paths : List GoString)
    (cs : List GoString × Nat × List Goroutine) (j : Nat) :
    (split.coreStep paths cs j).2.2.length = cs.2.2.length := by
  unfold split.coreStep
  split
  · split <;> simp
  · rfl

theorem coreStep_pc (paths : List GoString) (cs : List GoString × Nat × List Goroutine)
    (i j : Nat) (hlen : cs.2.2.length = paths.length) (hi : i < paths.length) :
    ((split.coreStep paths cs j).2.2.getD i ⟨0, 0⟩).pc =
      if i = j ∧ (cs.2.2.getD i ⟨0, 0⟩).pc < 4 then (cs.2.2.getD i ⟨0, 0⟩).pc + 1
      else (cs.2.2.getD i ⟨0, 0⟩).pc := by
  have hig : i < cs.2.2.length := by omega
  unfold split.coreStep
  simp only [List.get?_eq_getElem?]
  by_cases hj : j < paths.length
  · have hjg : j < cs.2.2.length := by omega
    rw [List.getElem?_eq_getElem hj, List.getElem?_eq_getElem hjg]
    simp only
    by_cases hij : i = j
    · subst hij
      simp only [List.getD_eq_getElem _ _ hig, true_and]
      generalize hg : cs.2.2[i] = g
      obtain ⟨pc, l⟩ := g
      match pc with
      | 0 => simp [List.getD_eq_getElem?_getD, List.getElem?_set, hig]
      | 1 => simp [List.getD_eq_getElem?_getD, List.getElem?_set, hig]
      | 2 => simp [List.getD_eq_getElem?_getD, List.getElem?_set, hig]
      | 3 => simp [List.getD_eq_getElem?_getD, List.getElem?_set, hig]
      | n + 4 => simp [List.getD_eq_getElem?_getD, List.getElem?_eq_getElem hig, hg]
    · simp only [hij, false_and, if_false]
      have hji : j ≠ i := fun h => hij h.symm
      split <;> simp [List.getD_eq_getElem?_getD, List.getElem?_set, hji]
  · have hij : i ≠ j := by omega
    rw [List.getElem?_eq_none (Nat.le_of_not_lt hj)]
    simp [hij]

theorem coreFold_pc (paths : List GoString) (i : Nat) (hi : i < paths.length)
    (schedule : List Nat) (cs : List GoString × Nat × List Goroutine)
    (hlen : cs.2.2.length = paths.length) (hpc : (cs.2.2.getD i ⟨0, 0⟩).pc ≤ 4) :
    ((schedule.foldl (split.coreStep paths) cs).2.2.getD i ⟨0, 0⟩).pc =
      min 4 ((cs.2.2.getD i ⟨0, 0⟩).pc + schedule.count i) := by
  induction schedule generalizing cs with
  | nil =>
    simp only [List.foldl_nil, List.count_nil, Nat.add_zero]
    omega
  | cons j rest ih =>
    have hstep := coreStep_pc paths cs i j hlen hi
    have hlen2 : (split.coreStep paths cs j).2.2.length = paths.length := by
      rw [coreStep_gor_length, hlen]
    have hpc2 : ((split.coreStep paths cs j).2.2.getD i ⟨0, 0⟩).pc ≤ 4 := by
      rw [hstep]
      split <;> omega
    rw [List.foldl_cons, ih _ hlen2 hpc2, hstep]
    by_cases hij : i = j
    · subst hij
      rw [List.count_cons_self]
      split <;> omega
    · have hji : j ≠ i := fun h => hij h.symm
      simp only [hij, false_and, if_false]
      rw [List.count_cons_of_ne hij]

theorem coreFold_gor_length (paths : List GoString) (schedule : List Nat)
    (cs : List GoString × Nat × List Goroutine) :
    (schedule.foldl (split.coreStep paths) cs).2.2.length = cs.2.2.length := by
  induction schedule generalizing cs with
  | nil => rfl
  | cons j rest ih => rw [List.foldl_cons, ih, coreStep_gor_length]

/-- A schedule that gives every goroutine its four steps lets `split`
return. -/
theorem splitOutputs_isSome (paths : List GoString) (schedule : List Nat)
    (hdone : ∀ i, i < paths.length → 4 ≤ schedule.count i) :
    ∃ outs, splitOutputs paths schedule = some outs := by
  unfold splitOutputs
  simp only
  rw [if_pos]
  · exact ⟨_, rfl⟩
  · rw [List.all_eq_true]
    intro g hg
    obtain ⟨i, hi, rfl⟩ := List.mem_iff_getElem.mp hg
    have hlen := coreFold_gor_length paths schedule
      (List.replicate paths.length [], 0, List.replicate paths.length ⟨0, 0⟩)
    simp only [List.length_replicate] at hlen
    have hi2 : i < paths.length := by omega
    have hpc := coreFold_pc paths i hi2 schedule
      (List.replicate paths.length [], 0, List.replicate paths.length ⟨0, 0⟩)
      (by simp) (by simp [List.getD_eq_getElem?_getD, hi2])
    rw [List.getD_eq_getElem _ _ hi] at hpc
    have h4 := hdone i hi2
    simp only [List.getD_eq_getElem?_getD, List.getElem?_replicate, hi2, if_true,
      Option.getD_some] at hpc
    simp only [beq_iff_eq]
    omega

theorem doneCount_set (gor : List Goroutine) (j : Nat) (b : Goroutine) (hj : j < gor.length) :
    doneCount (gor.set j b) =
      doneCount gor - (if gor[j].pc = 4 then 1 else 0) + (if b.pc = 4 then 1 else 0) := by
  unfold doneCount
  rw [List.countP_set _ _ _ _ hj]
  simp only [beq_iff_eq]

theorem coreInv_set (slots : List GoString) (len len2 : Nat) (gor : List Goroutine) (j : Nat)
    (g b : Goroutine) (slots2 : List GoString) (hj : j < gor.length) (hg : gor[j] = g)
    (h : coreInv (slots, len, gor)) (hnot : g.pc ≠ 4)
    (hlen : len2 ≤ doneCount gor + (if b.pc = 4 then 1 else 0))
    (hb : (b.pc = 2 ∨ b.pc = 3) → b.l ≤ doneCount gor) :
    coreInv (slots2, len2, gor.set j b) := by
  have hd : doneCount (gor.set j b) = doneCount gor + (if b.pc = 4 then 1 else 0) := by
    rw [doneCount_set gor j b hj, hg, if_neg hnot]
    omega
  refine ⟨by simp only; omega, ?_⟩
  intro x hx hpc
  simp only at hx ⊢
  rw [hd]
  rcases List.mem_or_eq_of_mem_set hx with h1 | rfl
  · have h2 : x.l ≤ doneCount gor := h.2 x h1 hpc
    omega
  · have h2 : x.l ≤ doneCount gor := hb hpc
    omega

theorem coreStep_inv (paths : List GoString) (cs : List GoString × Nat × List Goroutine)
    (j : Nat) (h : coreInv cs) : coreInv (split.coreStep paths cs j) := by
  obtain ⟨slots, len, gor⟩ := cs
  unfold split.coreStep
  simp only [List.get?_eq_getElem?]
  cases hp : paths[j]? with
  | none => exact h
  | some clipOut =>
    cases hgj : gor[j]? with
    | none => exact h
    | some g =>
      obtain ⟨hj, hg⟩ := List.getElem?_eq_some_iff.mp hgj
      have hmem : g ∈ gor := hg ▸ List.getElem_mem hj
      obtain ⟨pc, l⟩ := g
      match pc with
      | 0 =>
        exact coreInv_set slots len len gor j _ ⟨1, l⟩ slots hj hg h (by simp)
          (by simpa using h.1) (by simp)
      | 1 =>
        exact coreInv_set slots len len gor j _ ⟨2, len⟩ slots hj hg h (by simp)
          (by simpa using h.1) (fun _ => h.1)
      | 2 =>
        exact coreInv_set slots len len gor j _ ⟨3, l⟩ _ hj hg h (by simp)
          (by simpa using h.1) (fun _ => h.2 ⟨2, l⟩ hmem (Or.inl rfl))
      | 3 =>
        have hl : l ≤ doneCount gor := h.2 ⟨3, l⟩ hmem (Or.inr rfl)
        exact coreInv_set slots len (l + 1) gor j _ ⟨4, l⟩ slots hj hg h (by simp)
          (by simp only [if_true]; omega) (by simp)
      | n + 4 => exact h

theorem coreFold_inv (paths : List GoString) (schedule : List Nat)
    (cs : List GoString × Nat × List Goroutine) (h : coreInv cs) :
    coreInv (schedule.foldl (split.coreStep paths) cs) := by
  induction schedule generalizing cs with
  | nil => exact h
  | cons j rest ih => exact ih _ (coreStep_inv paths cs j h)

theorem coreFold_store_within (paths : List GoString) (n : Nat) (schedule : List Nat)
    (i : Nat) (g : Goroutine)
    (hg : (schedule.foldl (split.coreStep paths)
      (List.replicate n ([] : GoString), 0, List.replicate n (⟨0, 0⟩ : Goroutine))).2.2[i]? =
        some g)
    (hpc : g.pc = 2 ∨ g.pc = 3) : g.l < n := by
  have hstart : coreInv
      (List.replicate n ([] : GoString), 0, List.replicate n (⟨0, 0⟩ : Goroutine)) := by
    refine ⟨Nat.zero_le _, ?_⟩
    intro x hx hxpc
    have := List.eq_of_mem_replicate hx
    subst this
    simp at hxpc
  have hinv := coreFold_inv paths schedule _ hstart
  have hlen := coreFold_gor_length paths schedule
    (List.replicate n ([] : GoString), 0, List.replicate n (⟨0, 0⟩ : Goroutine))
  simp only [List.length_replicate] at hlen
  generalize schedule.foldl (split.coreStep paths)
    (List.replicate n ([] : GoString), 0, List.replicate n (⟨0, 0⟩ : Goroutine)) = final
    at hg hinv hlen
  obtain ⟨hi, hgi⟩ := List.getElem?_eq_some_iff.mp hg
  have hmem : g ∈ final.2.2 := hgi ▸ List.getElem_mem hi
  have hle : g.l ≤ doneCount final.2.2 := hinv.2 g hmem hpc
  have h1 : doneCount final.2.2 ≤ final.2.2.length := List.countP_le_length _
  have h2 : doneCount final.2.2 ≠ final.2.2.length := by
    intro heq
    have hall := List.countP_eq_length.mp heq g hmem
    simp only [beq_iff_eq] at hall
    omega
  omega

/-- Under every schedule, a goroutine of `split` that has read the length of
`outputs` and not yet stored the new one has read a length below the capacity
`len(clips)`: its store goes into the backing array made by `make`, and
`append` never has to allocate a new one. -/
theorem split_store_within_capacity (engine : Engine) (schedule : List Nat) (clips : List clip)
    (workDir input : GoString) (w : World) (i : Nat) (g : Goroutine)
    (hg : (schedule.foldl (split.step engine input
        (clips.enum.map (fun ic => (ic.2, filepath_Join workDir (Sprintf_d_mp4 ic.1)))))
      ⟨w, List.replicate clips.length [], 0, List.replicate clips.length ⟨0, 0⟩⟩).gor[i]? = some g)
    (hpc : g.pc = 2 ∨ g.pc = 3) : g.l < clips.length := by
  have hcore := split_fold_core engine input
    (clips.enum.map (fun ic => (ic.2, filepath_Join workDir (Sprintf_d_mp4 ic.1)))) schedule
    ⟨w, List.replicate clips.length [], 0, List.replicate clips.length ⟨0, 0⟩⟩
  have hgor := congrArg (fun c => c.2.2) hcore
  simp only [SplitState.core] at hgor
  rw [hgor] at hg
  exact coreFold_store_within _ clips.length schedule i g hg hpc

/-- C5, the failing input: two clips whose goroutines complete in the order
`1`, `0`, the four steps of goroutine `1` coming before those of goroutine
`0`. Whatever the engine does, `split` returns `movie_tmp/1.mp4` before
`movie_tmp/0.mp4`, the order of completion and not the order of the
configuration. -/
theorem split_completion_order (engine : Engine) (c0 c1 : clip) (input : GoString) (w : World) :
    (split engine [1, 1, 1, 1, 0, 0, 0, 0] [c0, c1] "movie_tmp".toList input w).map (fun r => r.1) =
        some (["movie_tmp/1.mp4".toList, "movie_tmp/0.mp4".toList], none) ∧
      [segmentPath "movie_tmp".toList 0, segmentPath "movie_tmp".toList 1] =
        ["movie_tmp/0.mp4".toList, "movie_tmp/1.mp4".toList] := by
  refine ⟨?_, by decide⟩
  rw [split_map_fst]
  have hlen : [c0, c1].length = 2 := rfl
  rw [hlen]
  decide

/-- C10 fails as stated: two clips, an engine that fails on every run, and a
schedule in which both goroutines read the length `0` of `outputs` before
either stores. `split` returns a nil error and the single path `w/1.mp4`: the
path `w/0.mp4` of the failed segment `0` is not in the returned list. -/
theorem split_lost_path_counterexample :
    (split (fun _ fs => (some (.external 1), fs)) [0, 1, 0, 1, 0, 0, 1, 1] [⟨[], []⟩, ⟨[], []⟩]
        "w".toList "in".toList ⟨[], [], [], []⟩).map (fun r => r.1) =
      some (["w/1.mp4".toList], none) ∧
    segmentPath "w".toList 0 ∉ ["w/1.mp4".toList] := by
  decide

/-- C10 (amended): under every schedule that lets each goroutine finish,
whatever the engine returns for each segment, `split` returns, its error is
nil, and the list it returns is the one it returns under the same schedule
with any other engine: the outcome of a run is never reported and has no
effect on the list. -/
theorem split_never_reports (engine : Engine) (schedule : List Nat) (clips : List clip)
    (workDir input : GoString) (w : World)
    (hdone : ∀ i, i < clips.length → 4 ≤ schedule.count i) :
    ∃ outs w1, split engine schedule clips workDir input w = some ((outs, none), w1) ∧
      ∀ engine2 : Engine, ∃ w2,
        split engine2 schedule clips workDir input w = some ((outs, none), w2) := by
  obtain ⟨outs, houts⟩ := splitOutputs_isSome
    ((List.range clips.length).map (segmentPath workDir)) schedule (by simpa using hdone)
  have key : ∀ e : Engine, ∃ w2,
      split e schedule clips workDir input w = some ((outs, none), w2) := by
    intro e
    have h := split_map_fst e schedule clips workDir input w
    rw [houts] at h
    cases hs : split e schedule clips workDir input w with
    | none => rw [hs] at h; cases h
    | some r =>
      rw [hs] at h
      simp only [Option.map_some', Option.some.injEq] at h
      exact ⟨r.2, by rw [← h]⟩
  obtain ⟨w1, hw1⟩ := key engine
  exact ⟨outs, w1, hw1, key⟩

/-- Witness of C10: two clips, an engine that fails on every run, the
goroutines running one after the other. -/
theorem split_never_reports_witness :
    ∃ outs w1, split (fun _ fs => (some (.external 1), fs)) [0, 0, 0, 0, 1, 1, 1, 1]
        [⟨[], []⟩, ⟨[], []⟩] "w".toList "in".toList ⟨[], [], [], []⟩ = some ((outs, none), w1) ∧
      ∀ engine2 : Engine, ∃ w2,
        split engine2 [0, 0, 0, 0, 1, 1, 1, 1] [⟨[], []⟩, ⟨[], []⟩] "w".toList "in".toList
          ⟨[], [], [], []⟩ = some ((outs, none), w2) :=
  split_never_reports (fun _ fs => (some (.external 1), fs)) [0, 0, 0, 0, 1, 1, 1, 1]
    [⟨[], []⟩, ⟨[], []⟩] "w".toList "in".toList ⟨[], [], [], []⟩ (by decide)

/-! ## Theorems on `concat` -/

theorem concat_buffer (pwd : GoString) (clips : List GoString) (acc : GoString) :
    clips.foldl (fun buf v => buf ++ manifestLine pwd v) acc =
      acc ++ (clips.map (manifestLine pwd)).flatten := by
  induction clips generalizing acc with
  | nil => simp
  | cons v vs ih => simp [ih]

/-- C7: `concat` makes one call of `ioutil.WriteFile`, for the path
`<workdir>/clips-<output>.txt`; the content handed over is the concatenation
of one line per segment, in the order of the list, the line of the segment
`v` being `file '`, the working directory joined with `v`, `'` and a line
feed. -/
theorem concat_manifest (engine : Engine) (writeFile : GoString → GoString → Option GoError)
    (clips : List GoString) (workdir output : GoString) (w : World) :
    ∃ lines : List GoString,
      lines.length = clips.length ∧
      (∀ i (h : i < clips.length), lines[i]? =
        some ("file '".toList ++ filepath_Join w.cwd clips[i] ++ "'\n".toList)) ∧
      (concat engine writeFile clips workdir output w).2.written =
        w.written ++ [(filepath_Join workdir ("clips-".toList ++ output ++ ".txt".toList),
          lines.flatten)] := by
  refine ⟨clips.map (manifestLine w.cwd), by simp, ?_, ?_⟩
  · intro i h
    rw [List.getElem?_map, List.getElem?_eq_getElem h]
    rfl
  · unfold concat
    simp only [concat_buffer, List.nil_append]
    split <;> rfl

end Ffmpeg
